import Mathlib

/-!
Verification development for the layout-based row reconstruction and join
engine of extract_pdf.py (primavera_planning_dashboard).

The Python source is shallowly embedded: tokens are Lean strings (lists of
characters), page coordinates are rationals, Python dictionaries keyed by
(block, line) become insertion-ordered association lists, and the calendar
arithmetic of datetime.date is carried out on validated (year, month, day)
triples via the proleptic Gregorian day number.  Characters outside ASCII
are written by code point.
-/

namespace Primavera

/-- Characters removed by Python str.strip with no arguments (the CPython
str.isspace set: ASCII whitespace, the C1 separators, and the Unicode
space separators). -/
def pyIsSpace (c : Char) : Bool :=
  c.toNat ∈ [0x20, 0x9, 0xA, 0xB, 0xC, 0xD, 0x1C, 0x1D, 0x1E, 0x1F,
             0x85, 0xA0, 0x1680,
             0x2000, 0x2001, 0x2002, 0x2003, 0x2004, 0x2005, 0x2006,
             0x2007, 0x2008, 0x2009, 0x200A,
             0x2028, 0x2029, 0x202F, 0x205F, 0x3000]

/-- Python str.strip with no arguments: drop whitespace from both ends. -/
def pyStripC (s : List Char) : List Char :=
  ((s.dropWhile pyIsSpace).reverse.dropWhile pyIsSpace).reverse

/-- U+200B ZERO WIDTH SPACE. -/
def zwsp : Char := Char.ofNat 0x200B

/-- U+FEFF BYTE ORDER MARK. -/
def bomChar : Char := Char.ofNat 0xFEFF

/-- U+00A0 NO-BREAK SPACE. -/
def nbsp : Char := Char.ofNat 0xA0

/-- The hyphen glyph class HYPHEN_CLASS of extract_pdf.py (line 8); the same
nine glyphs populate HYPHEN_CHARS (line 9): ASCII hyphen, U+2010..U+2014,
U+2212, U+FE63, U+FF0D. -/
def isHyphenChar (c : Char) : Bool :=
  c.toNat ∈ [0x2D, 0x2010, 0x2011, 0x2012, 0x2013, 0x2014, 0x2212,
             0xFE63, 0xFF0D]

/-- Second-stage substitution of normalize_token: replace non-breaking
spaces by plain spaces. -/
def nbspSub (c : Char) : Char := if c = nbsp then ' ' else c

/-- Third-stage substitution of normalize_token: re.sub(HYPHEN_CLASS, "-"). -/
def hySub (c : Char) : Char := if isHyphenChar c then '-' else c

/-- normalize_token of extract_pdf.py (lines 34-40) over character lists:
strip, remove U+200B and U+FEFF, map U+00A0 to a space, then collapse every
hyphen glyph to the ASCII hyphen. -/
def normTokC (s : List Char) : List Char :=
  ((((pyStripC s).filter (fun c => c != zwsp)).filter
      (fun c => c != bomChar)).map nbspSub).map hySub

/-- normalize_token of extract_pdf.py (lines 34-40). -/
def normalize_token (t : String) : String := ⟨normTokC t.data⟩

example : normalize_token "  ab-cd  " = "ab-cd" := by decide

example : normTokC [Char.ofNat 0x2013] = ['-'] := by decide

example : normTokC [zwsp, ' ', 'a'] = [' ', 'a'] := by decide

/-- The combined character substitution normalize_token applies after its
strip-and-remove stage. -/
def normChar (c : Char) : Char := hySub (nbspSub c)

theorem head?_dropWhile_not (p : α → Bool) (l : List α) (c : α)
    (h : (l.dropWhile p).head? = some c) : p c = false := by
  induction l with
  | nil => simp [List.dropWhile] at h
  | cons a t ih =>
    rw [List.dropWhile_cons] at h
    by_cases hp : p a
    · rw [if_pos hp] at h
      exact ih h
    · rw [if_neg hp] at h
      simp at h
      subst h
      exact Bool.eq_false_iff.mpr hp

theorem pyStripC_getLast?_not (s : List Char) (c : Char)
    (h : (pyStripC s).getLast? = some c) : pyIsSpace c = false := by
  unfold pyStripC at h
  rw [List.getLast?_reverse] at h
  exact head?_dropWhile_not _ _ _ h

theorem pyStripC_head?_not (s : List Char) (c : Char)
    (h : (pyStripC s).head? = some c) : pyIsSpace c = false := by
  unfold pyStripC at h
  rw [List.head?_reverse] at h
  obtain ⟨w, hw⟩ := List.dropWhile_suffix (l := (s.dropWhile pyIsSpace).reverse) pyIsSpace
  have h2 : ((s.dropWhile pyIsSpace).reverse).getLast? = some c := by
    rw [← hw, List.getLast?_append, h]
    rfl
  rw [List.getLast?_reverse] at h2
  exact head?_dropWhile_not _ _ _ h2

theorem dropWhile_eq_self_of_head (p : α → Bool) (l : List α)
    (h : ∀ c, l.head? = some c → p c = false) : l.dropWhile p = l := by
  cases l with
  | nil => rfl
  | cons a t => simp [List.dropWhile_cons, h a rfl]

theorem pyStripC_eq_self (l : List Char)
    (h1 : ∀ c, l.head? = some c → pyIsSpace c = false)
    (h2 : ∀ c, l.getLast? = some c → pyIsSpace c = false) : pyStripC l = l := by
  unfold pyStripC
  rw [dropWhile_eq_self_of_head _ _ h1]
  rw [dropWhile_eq_self_of_head _ _ (fun c hc => h2 c (by rwa [List.head?_reverse] at hc))]
  exact List.reverse_reverse l

theorem mem_pyStripC (s : List Char) (c : Char) (h : c ∈ pyStripC s) : c ∈ s := by
  unfold pyStripC at h
  rw [List.mem_reverse] at h
  have h2 := (List.dropWhile_sublist (l := (s.dropWhile pyIsSpace).reverse) pyIsSpace).subset h
  rw [List.mem_reverse] at h2
  exact (List.dropWhile_sublist pyIsSpace).subset h2

theorem map_eq_self_of {f : α → α} {l : List α} (h : ∀ c ∈ l, f c = c) : l.map f = l := by
  induction l with
  | nil => rfl
  | cons a t ih =>
    rw [List.map_cons, h a (by simp), ih (fun c hc => h c (by simp [hc]))]

theorem normChar_cases (c : Char) : normChar c = c ∨ normChar c = ' ' ∨ normChar c = '-' := by
  unfold normChar nbspSub hySub
  by_cases h1 : c = nbsp
  · rw [if_pos h1]
    right; left
    decide
  · rw [if_neg h1]
    by_cases h2 : isHyphenChar c = true
    · rw [if_pos h2]
      right; right; rfl
    · rw [if_neg h2]
      left; rfl

theorem nbspSub_normChar (c : Char) : nbspSub (normChar c) = normChar c := by
  unfold normChar nbspSub hySub
  by_cases h1 : c = nbsp
  · rw [if_pos h1]; decide
  · rw [if_neg h1]
    by_cases h2 : isHyphenChar c = true
    · rw [if_pos h2]; decide
    · rw [if_neg h2]
      rw [if_neg h1]

theorem hySub_normChar (c : Char) : hySub (normChar c) = normChar c := by
  unfold normChar nbspSub hySub
  by_cases h1 : c = nbsp
  · rw [if_pos h1]; decide
  · rw [if_neg h1]
    by_cases h2 : isHyphenChar c = true
    · rw [if_pos h2]; decide
    · rw [if_neg h2]
      rw [if_neg h2]

theorem normChar_ne_of_ne (c : Char) (x : Char) (hx1 : x ≠ ' ') (hx2 : x ≠ '-')
    (h : c ≠ x) : normChar c ≠ x := by
  rcases normChar_cases c with hc | hc | hc <;> rw [hc]
  · exact h
  · exact fun he => hx1 he.symm
  · exact fun he => hx2 he.symm

theorem pyIsSpace_normChar (c : Char) (h : pyIsSpace c = false) :
    pyIsSpace (normChar c) = false := by
  unfold normChar nbspSub hySub
  by_cases h1 : c = nbsp
  · exfalso
    rw [h1] at h
    exact absurd h (by decide)
  · rw [if_neg h1]
    by_cases h2 : isHyphenChar c = true
    · rw [if_pos h2]; decide
    · rw [if_neg h2]; exact h

theorem normTokC_eq_map (s : List Char)
    (h : ∀ c ∈ s, c ≠ zwsp ∧ c ≠ bomChar) :
    normTokC s = (pyStripC s).map normChar := by
  unfold normTokC
  have hz : (pyStripC s).filter (fun c => c != zwsp) = pyStripC s :=
    List.filter_eq_self.mpr (fun a ha => bne_iff_ne.mpr (h a (mem_pyStripC s a ha)).1)
  rw [hz]
  have hb : (pyStripC s).filter (fun c => c != bomChar) = pyStripC s :=
    List.filter_eq_self.mpr (fun a ha => bne_iff_ne.mpr (h a (mem_pyStripC s a ha)).2)
  rw [hb, List.map_map]
  rfl

theorem normTokC_fixed (s : List Char)
    (h : ∀ c ∈ s, c ≠ zwsp ∧ c ≠ bomChar) :
    normTokC (normTokC s) = normTokC s := by
  rw [normTokC_eq_map s h]
  set t := (pyStripC s).map normChar with ht
  have hmem : ∀ c ∈ t, ∃ c₀, c₀ ∈ pyStripC s ∧ c = normChar c₀ := by
    intro c hc
    rw [ht, List.mem_map] at hc
    obtain ⟨c₀, hc₀, hcc⟩ := hc
    exact ⟨c₀, hc₀, hcc.symm⟩
  have hstrip : pyStripC t = t := by
    refine pyStripC_eq_self t ?_ ?_
    · intro c hc
      rw [ht, List.head?_map] at hc
      cases hu : (pyStripC s).head? with
      | none => rw [hu] at hc; simp at hc
      | some c₀ =>
        rw [hu] at hc
        simp at hc
        rw [← hc]
        exact pyIsSpace_normChar c₀ (pyStripC_head?_not s c₀ hu)
    · intro c hc
      rw [ht, List.getLast?_map] at hc
      cases hu : (pyStripC s).getLast? with
      | none => rw [hu] at hc; simp at hc
      | some c₀ =>
        rw [hu] at hc
        simp at hc
        rw [← hc]
        exact pyIsSpace_normChar c₀ (pyStripC_getLast?_not s c₀ hu)
  unfold normTokC
  rw [hstrip]
  have hz : t.filter (fun c => c != zwsp) = t := by
    refine List.filter_eq_self.mpr (fun a ha => bne_iff_ne.mpr ?_)
    obtain ⟨c₀, hc₀, hcc⟩ := hmem a ha
    rw [hcc]
    exact normChar_ne_of_ne c₀ zwsp (by decide) (by decide)
      (h c₀ (mem_pyStripC s c₀ hc₀)).1
  rw [hz]
  have hb : t.filter (fun c => c != bomChar) = t := by
    refine List.filter_eq_self.mpr (fun a ha => bne_iff_ne.mpr ?_)
    obtain ⟨c₀, hc₀, hcc⟩ := hmem a ha
    rw [hcc]
    exact normChar_ne_of_ne c₀ bomChar (by decide) (by decide)
      (h c₀ (mem_pyStripC s c₀ hc₀)).2
  rw [hb]
  have hn : t.map nbspSub = t := by
    refine map_eq_self_of (fun c hc => ?_)
    obtain ⟨c₀, _, hcc⟩ := hmem c hc
    rw [hcc]
    exact nbspSub_normChar c₀
  rw [hn]
  refine map_eq_self_of (fun c hc => ?_)
  obtain ⟨c₀, _, hcc⟩ := hmem c hc
  rw [hcc]
  exact hySub_normChar c₀

/-- C8 counterexample: normalize_token is not idempotent.  On the input
consisting of a zero-width space, a blank and a letter, the first pass
removes the zero-width space and exposes a leading blank that only the
second pass strips. -/
theorem claim_C8_counterexample :
    normalize_token (normalize_token (String.mk [zwsp, ' ', 'a'])) ≠
      normalize_token (String.mk [zwsp, ' ', 'a']) := by decide

/-- C8 (amended): token normalization is idempotent on every string that
contains no zero-width space (U+200B) and no byte-order mark (U+FEFF); on
such strings normalize(normalize(x)) == normalize(x).  (Removing those two
characters after the strip stage can expose fresh leading or trailing
whitespace, which is what breaks idempotence in general.) -/
theorem claim_C8_amended (s : String)
    (h : ∀ c ∈ s.data, c ≠ zwsp ∧ c ≠ bomChar) :
    normalize_token (normalize_token s) = normalize_token s := by
  unfold normalize_token
  exact congrArg String.mk (normTokC_fixed s.data h)

theorem claim_C8_witness :
    normalize_token (normalize_token "  a - b  ") = normalize_token "  a - b  " :=
  claim_C8_amended "  a - b  " (by decide)

/-! Stable insertion sort, the embedding of Python's stable sorted/sort. -/

def insertLe (leB : α → α → Bool) (x : α) : List α → List α
  | [] => [x]
  | y :: ys => if leB y x then y :: insertLe leB x ys else x :: y :: ys

/-- Python sorted(l, key=...): stable ascending sort, realized by inserting
the elements in their original order, each after any equal keys. -/
def sortLe (leB : α → α → Bool) (l : List α) : List α :=
  l.foldl (fun acc x => insertLe leB x acc) []

/-! Character-class models of the regexes of extract_pdf.py.  Python's re
classes \d and [A-Z] (with IGNORECASE) are modelled over ASCII, which covers
every string this pipeline's claims exercise. -/

def isDigitC (c : Char) : Bool := '0' ≤ c && c ≤ '9'

def isAlphaC (c : Char) : Bool := ('A' ≤ c && c ≤ 'Z') || ('a' ≤ c && c ≤ 'z')

/-- YEAR_RE of extract_pdf.py (line 15): a full match of four digits. -/
def isYear4 (s : List Char) : Bool := s.length == 4 && s.all isDigitC

/-- MD_RE of extract_pdf.py (line 16): a full match of two digits. -/
def isMD2 (s : List Char) : Bool := s.length == 2 && s.all isDigitC

/-- ACT_ID_RE of extract_pdf.py (line 18): one to six letters followed by
two to seven digits, matching the whole token, case-insensitively. -/
def matchActId (s : List Char) : Bool :=
  let letters := s.takeWhile isAlphaC
  let rest := s.drop letters.length
  let digits := rest.takeWhile isDigitC
  decide (1 ≤ letters.length) && decide (letters.length ≤ 6) &&
    decide (2 ≤ digits.length) && decide (digits.length ≤ 7) &&
    (rest.drop digits.length).isEmpty

/-- PKG_RE of extract_pdf.py (line 19): a single letter followed by two or
three digits, matching the whole token, case-insensitively. -/
def matchPkg (s : List Char) : Bool :=
  let letters := s.takeWhile isAlphaC
  let rest := s.drop letters.length
  let digits := rest.takeWhile isDigitC
  decide (letters.length = 1) &&
    decide (2 ≤ digits.length) && decide (digits.length ≤ 3) &&
    (rest.drop digits.length).isEmpty

/-- looks_like_activity_id of extract_pdf.py (lines 42-44). -/
def looks_like_activity_id (tok : String) : Bool := matchActId (normTokC tok.data)

/-- is_package_code of extract_pdf.py (lines 46-48). -/
def is_package_code (tok : String) : Bool := matchPkg (normTokC tok.data)

/-- Python str.upper over the ASCII range.  The pipeline only uppercases
identifier tokens and description heads, which are ASCII. -/
def pyUpperChar (c : Char) : Char :=
  if 'a' ≤ c && c ≤ 'z' then Char.ofNat (c.toNat - 32) else c

def pyUpperC (s : List Char) : List Char := s.map pyUpperChar

/-- Python str.lower over the ASCII range. -/
def pyLowerChar (c : Char) : Char :=
  if 'A' ≤ c && c ≤ 'Z' then Char.ofNat (c.toNat + 32) else c

def pyLowerC (s : List Char) : List Char := s.map pyLowerChar

/-- Exactly n digits at the head of s: the maximal digit run must have
length n (a longer run makes the regex's following separator fail). -/
def exactDigits (n : Nat) (s : List Char) : Option (List Char × List Char) :=
  let d := s.takeWhile isDigitC
  if d.length = n then some (d, s.drop n) else none

/-- FULL_DATE_RE of extract_pdf.py (line 12): optional whitespace, four
digits, a hyphen-class glyph, two digits, a hyphen-class glyph, two digits,
an optional star, optional whitespace, end of token.  Returns the three
captured digit groups. -/
def matchFullDate (s : List Char) : Option (List Char × List Char × List Char) :=
  let s0 := s.dropWhile pyIsSpace
  match exactDigits 4 s0 with
  | none => none
  | some (y, r1) =>
    match r1 with
    | [] => none
    | c :: r2 =>
      if isHyphenChar c then
        match exactDigits 2 r2 with
        | none => none
        | some (m, r3) =>
          match r3 with
          | [] => none
          | c2 :: r4 =>
            if isHyphenChar c2 then
              match exactDigits 2 r4 with
              | none => none
              | some (d, r5) =>
                let r6 := if r5.head? = some '*' then r5.tail else r5
                if (r6.dropWhile pyIsSpace).isEmpty then some (y, m, d) else none
            else none
      else none

/-- One found date of extract_dates_from_tokens: the index of its first
token, the reassembled ISO text and the provisional-star flag. -/
structure RawDate where
  idx : Nat
  iso : String
  star : Bool
deriving DecidableEq, Repr

/-- Stage A of extract_dates_from_tokens (lines 97-105): full-token dates. -/
def fullTokenDates (tokens : List String) : List RawDate :=
  tokens.enum.filterMap (fun p =>
    let raw := pyStripC p.2.data
    let star := decide (raw.getLast? = some '*')
    let norm := (normTokC raw).filter (fun c => c != '*')
    match matchFullDate norm with
    | some (y, m, d) =>
      some ⟨p.1, String.mk (y ++ '-' :: m ++ '-' :: d), star⟩
    | none => none)

/-- HYPHEN_CHARS of extract_pdf.py (line 9).  The literal set contains the
ASCII hyphen twice and, unlike HYPHEN_CLASS, does not contain U+2011. -/
def isHyphenTok (t : List Char) : Bool :=
  match t with
  | [c] => c.toNat ∈ [0x2D, 0x2010, 0x2012, 0x2013, 0x2014, 0x2212, 0xFE63, 0xFF0D]
  | _ => false

/-- Stage B of extract_dates_from_tokens (lines 107-131): the while loop over
split date tokens, written with explicit fuel (the loop advances its index by
at least one per iteration, so tokens.length + 1 steps always suffice). -/
def splitDatesLoop (toks : List String) : Nat → Nat → List RawDate
  | 0, _ => []
  | fuel + 1, i =>
    if i < toks.length then
      let t0 := normTokC (toks.getD i "").data
      if isYear4 t0 && decide (i + 4 < toks.length) then
        let t1 := normTokC (toks.getD (i + 1) "").data
        let t2 := normTokC (toks.getD (i + 2) "").data
        let t3 := normTokC (toks.getD (i + 3) "").data
        let t4 := normTokC (toks.getD (i + 4) "").data
        if (isHyphenTok t1 || t1 == ['-']) && isMD2 t2 &&
            (isHyphenTok t3 || t3 == ['-']) && isMD2 t4 then
          let j0 := i + 5
          let hasStar := decide (j0 < toks.length) &&
            normTokC (toks.getD j0 "").data == ['*']
          let j := if hasStar then j0 + 1 else j0
          ⟨i, String.mk (t0 ++ '-' :: t2 ++ '-' :: t4), hasStar⟩ ::
            splitDatesLoop toks fuel j
        else splitDatesLoop toks fuel (i + 1)
      else splitDatesLoop toks fuel (i + 1)
    else []

/-- Final de-duplication of extract_dates_from_tokens (lines 133-141):
keep the first item of each (iso, idx) key, in idx-sorted order. -/
def dedupRawDates : List RawDate → List (String × Nat) → List RawDate
  | [], _ => []
  | d :: ds, seen =>
    if (d.iso, d.idx) ∈ seen then dedupRawDates ds seen
    else d :: dedupRawDates ds ((d.iso, d.idx) :: seen)

/-- extract_dates_from_tokens of extract_pdf.py (lines 87-141). -/
def extract_dates_from_tokens (tokens : List String) : List RawDate :=
  let dates := fullTokenDates tokens ++ splitDatesLoop tokens (tokens.length + 1) 0
  dedupRawDates (sortLe (fun a b => decide (a.idx ≤ b.idx)) dates) []

example :
    extract_dates_from_tokens ["2025-01-01", "xx", "2025-03-15"] =
      [⟨0, "2025-01-01", false⟩, ⟨2, "2025-03-15", false⟩] := by decide

example :
    extract_dates_from_tokens ["2026", "-", "02", "-", "15", "*"] =
      [⟨0, "2026-02-15", true⟩] := by decide

example :
    extract_dates_from_tokens ["2026-02-15*"] = [⟨0, "2026-02-15", true⟩] := by decide

/-! The calendar model: datetime.date values as validated triples, compared
through the proleptic Gregorian day number (datetime.date.toordinal). -/

structure PDate where
  year : Nat
  month : Nat
  day : Nat
deriving DecidableEq, Repr

def isLeapYear (y : Nat) : Bool := (y % 4 == 0 && y % 100 != 0) || y % 400 == 0

def daysInMonth (y m : Nat) : Nat :=
  if m = 2 then (if isLeapYear y then 29 else 28)
  else if m = 4 ∨ m = 6 ∨ m = 9 ∨ m = 11 then 30 else 31

def daysBefore (y m : Nat) : Nat :=
  (List.range (m - 1)).foldl (fun acc k => acc + daysInMonth y (k + 1)) 0

/-- datetime.date.toordinal: day 1 is 0001-01-01. -/
def toOrdinal (d : PDate) : Int :=
  let y : Int := (d.year : Int) - 1
  365 * y + y / 4 - y / 100 + y / 400 + (daysBefore d.year d.month : Int) + (d.day : Int)

def digitsToNat (l : List Char) : Nat := l.foldl (fun acc c => 10 * acc + (c.toNat - 48)) 0

/-- parse_iso of extract_pdf.py (lines 59-60) wraps dateutil's parser.  On
the strings this pipeline feeds it - always of the ten-character shape
DDDD-DD-DD produced by the date regexes - dateutil assigns the three fields
positionally as year-month-day (the four-digit group is pinned as the year)
and raises ValueError unless the triple is a real proleptic-Gregorian
calendar date with year at least 1.  This model accepts exactly those
strings and maps every other string, and every calendar-invalid triple such
as a month of 13, to none (the caller's try/except path). -/
def parse_iso (iso : String) : Option PDate :=
  match iso.data with
  | [y1, y2, y3, y4, h1, m1, m2, h2, d1, d2] =>
    if h1 = '-' && h2 = '-' &&
        [y1, y2, y3, y4, m1, m2, d1, d2].all isDigitC then
      let y := digitsToNat [y1, y2, y3, y4]
      let m := digitsToNat [m1, m2]
      let d := digitsToNat [d1, d2]
      if 1 ≤ y && 1 ≤ m && m ≤ 12 && 1 ≤ d && d ≤ daysInMonth y m then
        some ⟨y, m, d⟩
      else none
    else none
  | _ => none

example : parse_iso "2025-01-01" = some ⟨2025, 1, 1⟩ := by decide

example : parse_iso "2025-13-01" = none := by decide

example : parse_iso "2025-02-29" = none := by decide

example :
    toOrdinal ⟨2025, 3, 15⟩ - toOrdinal ⟨2025, 1, 1⟩ = 73 := by decide

/-! The work-type classifier.  Each WORKTYPE_RULES pattern is of the shape
word(\s+word)* bracketed by word boundaries, so it is modelled as a word
sequence searched anywhere in the lowercased description. -/

def isWordChar (c : Char) : Bool := isAlphaC c || isDigitC c || c = '_'

def boundaryAfter (s : List Char) : Bool :=
  match s with
  | [] => true
  | c :: _ => !isWordChar c

/-- Match the word sequence at the current position: each word literally,
separated by one or more whitespace characters, with a word boundary after
the last word. -/
def matchWordSeq : List (List Char) → List Char → Bool
  | [], s => boundaryAfter s
  | w :: ws, s =>
    if w.isPrefixOf s then
      let rest := s.drop w.length
      match ws with
      | [] => boundaryAfter rest
      | _ :: _ =>
        match rest with
        | c :: _ =>
          if pyIsSpace c then matchWordSeq ws (rest.dropWhile pyIsSpace) else false
        | [] => false
    else false

/-- re.search over all positions: a match may start wherever the preceding
character is not a word character (the leading word boundary). -/
def searchWordSeq (ws : List (List Char)) : Bool → List Char → Bool
  | prevWord, [] => !prevWord && matchWordSeq ws []
  | prevWord, c :: rest =>
    (!prevWord && matchWordSeq ws (c :: rest)) || searchWordSeq ws (isWordChar c) rest

/-- WORKTYPE_RULES of extract_pdf.py (lines 21-32), each regex split into
its literal words. -/
def WORKTYPE_RULES : List (String × List String) :=
  [("Pile diagram", ["pile", "diagram"]),
   ("Issue pile drawing", ["issue", "pile", "drawing"]),
   ("Issue DED drawing", ["issue", "ded", "drawing"]),
   ("Issue final DED drawing", ["issue", "final", "ded", "drawing"]),
   ("Other professional drawings", ["other", "professional", "drawings"]),
   ("Professional drawings", ["professional", "drawings"]),
   ("General layout", ["general", "layout"]),
   ("Bidding", ["bidding"]),
   ("Manufacturing", ["manufacturing"]),
   ("Shipping", ["shipping"])]

def ruleMatches (s : List Char) (words : List String) : Bool :=
  searchWordSeq (words.map String.data) false s

/-- infer_work_type of extract_pdf.py (lines 50-57): first matching rule on
the lowercased name wins; otherwise the name (not the identifier) uppercased
and starting with MS yields Milestone; otherwise Other. -/
def infer_work_type (name : String) : String :=
  match WORKTYPE_RULES.find? (fun r => ruleMatches (pyLowerC name.data) r.2) with
  | some r => r.1
  | none =>
    if ['M', 'S'].isPrefixOf (pyUpperC name.data) then "Milestone" else "Other"

example : infer_work_type "Issue pile drawing for area 2" = "Issue pile drawing" := by decide

example : infer_work_type "Design freeze" = "Other" := by decide

example : infer_work_type "MS handover" = "Milestone" := by decide

example : infer_work_type "Piling works" = "Other" := by decide

/-! The page model and build_lines. -/

/-- An exact fraction: page coordinates are floats in the source, and the
model computes with exact fractions instead; every value the pipeline
constructs keeps a positive denominator. -/
structure Q where
  num : Int
  den : Nat
deriving DecidableEq, Repr

/-- A whole-number coordinate. -/
def qN (n : Int) : Q := ⟨n, 1⟩

def qAdd (a b : Q) : Q := ⟨a.num * b.den + b.num * a.den, a.den * b.den⟩

def qSub (a b : Q) : Q := ⟨a.num * b.den - b.num * a.den, a.den * b.den⟩

def qHalf (a : Q) : Q := ⟨a.num, a.den * 2⟩

/-- Python abs on a fraction with positive denominator. -/
def qAbs (a : Q) : Q := if a.num < 0 then ⟨-a.num, a.den⟩ else a

/-- Comparison by cross multiplication (exact for positive denominators). -/
def qLeB (a b : Q) : Bool := decide (a.num * b.den ≤ b.num * a.den)

def qLtB (a b : Q) : Bool := decide (a.num * b.den < b.num * a.den)

/-- Python min of two values: the first argument on ties. -/
def qMin (a b : Q) : Q := if qLeB a b then a else b

/-- Python max of two values: the first argument on ties. -/
def qMax (a b : Q) : Q := if qLeB b a then a else b

/-- One entry of page.get_text("words"): bounding box, text and the
(block, line, word) indices. -/
structure Word where
  x0 : Q
  y0 : Q
  x1 : Q
  y1 : Q
  txt : String
  block_no : Nat
  line_no : Nat
  word_no : Nat
deriving DecidableEq, Repr

structure Frag where
  x0 : Q
  y0 : Q
  x1 : Q
  y1 : Q
  txt : String
deriving DecidableEq, Repr

structure Line where
  x0 : Q
  x1 : Q
  ymid : Q
  tokens : List String
deriving DecidableEq, Repr

/-- line_map.setdefault(key, []).append(...): a Python dict in insertion
order, appending within a key. -/
def upsert (m : List ((Nat × Nat) × List Frag)) (key : Nat × Nat) (v : Frag) :
    List ((Nat × Nat) × List Frag) :=
  match m with
  | [] => [(key, [v])]
  | (k, vs) :: rest =>
    if k = key then (k, vs ++ [v]) :: rest else (k, vs) :: upsert rest key v

def lineMap (words : List Word) : List ((Nat × Nat) × List Frag) :=
  words.foldl (fun m w =>
    let txt := normalize_token w.txt
    if txt = "" then m
    else upsert m (w.block_no, w.line_no) ⟨w.x0, w.y0, w.x1, w.y1, txt⟩) []

/-- One grouped line of build_lines: sort the fragments by x0, join the
non-empty texts, and take the bounding box of the group. -/
def buildLine (ws : List Frag) : Option Line :=
  let ws_sorted := sortLe (fun a b => qLeB a.x0 b.x0) ws
  let tokens := (ws_sorted.map (·.txt)).filter (fun t => t ≠ "")
  match ws_sorted with
  | [] => none
  | f :: rest =>
    if tokens.isEmpty then none
    else
      let x0 := rest.foldl (fun a z => qMin a z.x0) f.x0
      let x1 := rest.foldl (fun a z => qMax a z.x1) f.x1
      let y0 := rest.foldl (fun a z => qMin a z.y0) f.y0
      let y1 := rest.foldl (fun a z => qMax a z.y1) f.y1
      some ⟨x0, x1, qHalf (qAdd y0 y1), tokens⟩

/-- build_lines of extract_pdf.py (lines 62-85). -/
def build_lines (words : List Word) : List Line :=
  (lineMap words).filterMap (fun e => buildLine e.2)

/-! Row classification inside extract (lines 183-211). -/

structure IdLine where
  ymid : Q
  activity_id : String
  activity_name : String
  raw : String
deriving DecidableEq, Repr

structure DateLine where
  ymid : Q
  dates : List RawDate
  raw : String
deriving DecidableEq, Repr

def pyStripS (s : String) : String := ⟨pyStripC s.data⟩

/-- The head used for the table-header check: the first three tokens joined
with blanks, lowercased (for fewer than three tokens, all of them). -/
def lineHead (toks : List String) : List Char :=
  pyLowerC (String.intercalate " " (toks.take 3)).data

/-- The header/footer skip conditions of the row loop (lines 185-192). -/
def isSkippedLine (toks : List String) : Bool :=
  decide (toks.length < 2) ||
  "activity id".data.isPrefixOf (lineHead toks) ||
  "activityid".data.isPrefixOf (lineHead toks) ||
  pyLowerC (toks.getD 0 "").data == "month".data ||
  pyLowerC (toks.getD 0 "").data == "page".data

/-- The search for an activity identifier among the first six tokens
(lines 195-201). -/
def findActIdx (toks : List String) : Option Nat :=
  (List.range (min 6 toks.length)).find? (fun i => looks_like_activity_id (toks.getD i ""))

def classIdLine (ln : Line) : Option IdLine :=
  match findActIdx ln.tokens with
  | some i =>
    some ⟨ln.ymid,
      String.mk (pyUpperC (normTokC (ln.tokens.getD i "").data)),
      pyStripS (String.intercalate " " ((ln.tokens.drop (i + 1)).map normalize_token)),
      String.intercalate " | " (ln.tokens.take 30)⟩
  | none => none

def classDateLine (ln : Line) : Option DateLine :=
  let found := extract_dates_from_tokens ln.tokens
  if 2 ≤ found.length then
    some ⟨ln.ymid, found, String.intercalate " | " (ln.tokens.take 40)⟩
  else none

/-- The row loop of extract: a row can yield an identifier-row, a date-row,
both, or neither; skipped rows yield nothing. -/
def classify (lines : List Line) : List IdLine × List DateLine :=
  lines.foldl (fun acc ln =>
    if isSkippedLine ln.tokens then acc
    else (acc.1 ++ (classIdLine ln).toList, acc.2 ++ (classDateLine ln).toList))
    ([], [])

/-! The row join engine (lines 222-241). -/

def nearestIdAux (y : Q) : List IdLine → Option IdLine → Q → Option IdLine × Q
  | [], best, best_d => (best, best_d)
  | r :: rs, best, best_d =>
    let d := qAbs (qSub r.ymid y)
    if qLtB d best_d then nearestIdAux y rs (some r) d
    else nearestIdAux y rs best best_d

/-- nearest_id of extract (lines 225-233): scan the identifier-rows keeping
the first row of strictly smallest vertical distance, starting from the
sentinel distance 1e9. -/
def nearest_id (id_lines : List IdLine) (y : Q) : Option IdLine × Q :=
  nearestIdAux y id_lines none (qN 1000000000)

def Y_JOIN_MAX : Q := qN 14

/-! Context, records and assembly (lines 145-147 and 235-279). -/

structure Context where
  package_code : Option String
  package_name : Option String
  major_group : Option String
deriving DecidableEq, Repr

structure Record where
  major_group : String
  package_code : Option String
  package_name : Option String
  activity_id : String
  activity_name : String
  work_type : String
  start : PDate
  finish : PDate
  duration_days : Int
  is_milestone : Bool
  source_page : Nat
  pdf_pages : Nat
  start_star : Bool
  finish_star : Bool
deriving DecidableEq, Repr

/-- The body of the join loop for one date-row (lines 235-279): nearest
identifier-row within Y_JOIN_MAX, the last two found dates as start and
finish, calendar validation, the non-negative-duration guard, the package
context update, and the assembled record.  current_major_group or "Unknown"
is Option.getD because the scan only ever stores None or a non-empty label.
A date-row always carries at least two dates, so the two unreachable
fallback branches return no record. -/
def joinStep (ctx : Context) (id_lines : List IdLine) (page_i total_pages : Nat)
    (dl : DateLine) : Context × Option Record :=
  match nearest_id id_lines dl.ymid with
  | (none, _) => (ctx, none)
  | (some lr, dist) =>
    if qLtB Y_JOIN_MAX dist then (ctx, none)
    else
      match dl.dates.reverse with
      | finish :: start :: _ =>
        match parse_iso start.iso, parse_iso finish.iso with
        | some start_d, some finish_d =>
          let duration_days := toOrdinal finish_d - toOrdinal start_d
          if duration_days < 0 then (ctx, none)
          else
            let ctx' :=
              if is_package_code lr.activity_id then
                { ctx with package_code := some lr.activity_id,
                           package_name := some lr.activity_name }
              else ctx
            (ctx', some {
              major_group := ctx'.major_group.getD "Unknown",
              package_code := ctx'.package_code,
              package_name := ctx'.package_name,
              activity_id := lr.activity_id,
              activity_name := lr.activity_name,
              work_type := infer_work_type lr.activity_name,
              start := start_d,
              finish := finish_d,
              duration_days := duration_days,
              is_milestone := decide (start_d = finish_d),
              source_page := page_i + 1,
              pdf_pages := total_pages,
              start_star := start.star,
              finish_star := finish.star })
        | _, _ => (ctx, none)
      | _ => (ctx, none)

def pageJoin (ctx : Context) (id_lines : List IdLine) (page_i total_pages : Nat) :
    List DateLine → Context × List Record
  | [] => (ctx, [])
  | dl :: rest =>
    match joinStep ctx id_lines page_i total_pages dl with
    | (ctx1, none) => pageJoin ctx1 id_lines page_i total_pages rest
    | (ctx1, some r) =>
      let res := pageJoin ctx1 id_lines page_i total_pages rest
      (res.1, r :: res.2)

/-- The major-group heading scan over one plain-text line (lines 163-172). -/
def majorGroupStep (cur : Option String) (ln : String) : Option String :=
  let l := pyLowerC (pyStripC ln.data)
  if "detailed en".data.isPrefixOf l then some "Detailed Engineering Design"
  else if "procurement".data.isPrefixOf l then some "Procurement"
  else if "employer revi".data.isPrefixOf l then some "Employer Review and Approval"
  else if "main mile".data.isPrefixOf l then some "Main Milestones"
  else cur

/-- One document page, as the external token source hands it over: the
plain-text lines used by the heading scan and the positioned words. -/
structure Page where
  text : List String
  words : List Word
deriving DecidableEq, Repr

/-- One iteration of the page loop of extract (lines 158-279): heading scan
first over the whole page text, then row building, classification, the
ymid sorts, and the join loop. -/
def processPage (ctx : Context) (page_i total_pages : Nat) (pg : Page) :
    Context × List Record :=
  let mg := pg.text.foldl majorGroupStep ctx.major_group
  let ctx1 : Context := { ctx with major_group := mg }
  if pg.words.isEmpty then (ctx1, [])
  else
    let cls := classify (build_lines pg.words)
    let id_lines := sortLe (fun a b => qLeB a.ymid b.ymid) cls.1
    let date_lines := sortLe (fun a b => qLeB a.ymid b.ymid) cls.2
    if id_lines.isEmpty || date_lines.isEmpty then (ctx1, [])
    else pageJoin ctx1 id_lines page_i total_pages date_lines

def extractPagesLoop (ctx : Context) (total_pages : Nat) :
    Nat → List Page → Context × List Record
  | _, [] => (ctx, [])
  | i, pg :: rest =>
    let step := processPage ctx i total_pages pg
    let res := extractPagesLoop step.1 total_pages (i + 1) rest
    (res.1, step.2 ++ res.2)

/-- The record list assembled by extract (lines 143-279) before the
finalizer: the Python rows list, pages processed in document order with the
context threaded through. -/
def extractRows (pages : List Page) : List Record :=
  (extractPagesLoop ⟨none, none, none⟩ pages.length 0 pages).2

/-! The record-set finalizer (lines 304-306). -/

def recordKey (r : Record) : String × PDate × PDate := (r.activity_id, r.start, r.finish)

/-- df.drop_duplicates(subset=["activity_id","start","finish"]): keep the
first row of each key in document order. -/
def dedupRecords : List Record → List (String × PDate × PDate) → List Record
  | [], _ => []
  | r :: rs, seen =>
    if recordKey r ∈ seen then dedupRecords rs seen
    else r :: dedupRecords rs (recordKey r :: seen)

/-- Lexicographic comparison of integer lists (a shorter list that is a
prefix of the other comes first). -/
def intListLe : List Int → List Int → Bool
  | [], _ => true
  | _ :: _, [] => false
  | a :: as, b :: bs => if a < b then true else if b < a then false else intListLe as bs

/-- The multi-column ascending sort key of df.sort_values (line 305):
(package_code, start, finish, activity_id), flattened into one integer
list.  A missing package_code sorts after every present one (na_position
last, the leading 0/1 flag); the package-code and identifier strings
compare by code point (the -1 end marker, below every code point, makes
list-lexicographic order agree with string order); the ISO date strings of
the output compare exactly like their (year, month, day) triples. -/
def recKey (r : Record) : List Int :=
  (if r.package_code.isSome then 0 else 1) ::
    (((r.package_code.getD "").data.map (fun c => (c.toNat : Int))) ++
      [-1, (r.start.year : Int), (r.start.month : Int), (r.start.day : Int),
        (r.finish.year : Int), (r.finish.month : Int), (r.finish.day : Int)] ++
      r.activity_id.data.map (fun c => (c.toNat : Int)))

def recLeB (a b : Record) : Bool := intListLe (recKey a) (recKey b)

/-- The finalizer of extract (lines 304-306): drop_duplicates on
(activity_id, start, finish) keeping the first row, then an ascending sort
by (package_code, start, finish, activity_id) with missing package codes
last.  On an empty row list the result is empty (the empty-CSV branch). -/
def finalize (rows : List Record) : List Record :=
  sortLe recLeB (dedupRecords rows [])

/-- extract of extract_pdf.py (lines 143-307), as the record list written to
the output table. -/
def extract (pages : List Page) : List Record := finalize (extractRows pages)

/-! Concrete scenario inputs. -/

/-- One page holding the identifier-row S01 Piling works at ymid 100 and the
date-row 2025-01-01 2025-03-15 at ymid 101.5 (the end-to-end scenario of the
specification). -/
def s01Words : List Word :=
  [⟨qN 10, qN 98, qN 25, qN 102, "S01", 0, 0, 0⟩,
   ⟨qN 30, qN 98, qN 55, qN 102, "Piling", 0, 0, 1⟩,
   ⟨qN 60, qN 98, qN 85, qN 102, "works", 0, 0, 2⟩,
   ⟨qN 100, qN 100, qN 140, qN 103, "2025-01-01", 0, 1, 0⟩,
   ⟨qN 160, qN 100, qN 200, qN 103, "2025-03-15", 0, 1, 1⟩]

def pgS01 : Page := ⟨[], s01Words⟩

def s01Record : Record :=
  { major_group := "Unknown",
    package_code := some "S01",
    package_name := some "Piling works",
    activity_id := "S01",
    activity_name := "Piling works",
    work_type := "Other",
    start := ⟨2025, 1, 1⟩,
    finish := ⟨2025, 3, 15⟩,
    duration_days := 73,
    is_milestone := false,
    source_page := 1,
    pdf_pages := 1,
    start_star := false,
    finish_star := false }

example : extract [pgS01] = [s01Record] := by decide

/-- One page holding the identifier-row MS1010 Design freeze and a date-row
with equal start and finish dates (the milestone scenario of the
specification). -/
def msWords : List Word :=
  [⟨qN 10, qN 98, qN 30, qN 102, "MS1010", 0, 0, 0⟩,
   ⟨qN 35, qN 98, qN 60, qN 102, "Design", 0, 0, 1⟩,
   ⟨qN 65, qN 98, qN 90, qN 102, "freeze", 0, 0, 2⟩,
   ⟨qN 100, qN 100, qN 140, qN 103, "2026-02-15", 0, 1, 0⟩,
   ⟨qN 160, qN 100, qN 200, qN 103, "2026-02-15", 0, 1, 1⟩]

def pgMS : Page := ⟨[], msWords⟩

example :
    extract [pgMS] =
      [{ major_group := "Unknown",
         package_code := none,
         package_name := none,
         activity_id := "MS1010",
         activity_name := "Design freeze",
         work_type := "Other",
         start := ⟨2026, 2, 15⟩,
         finish := ⟨2026, 2, 15⟩,
         duration_days := 0,
         is_milestone := true,
         source_page := 1,
         pdf_pages := 1,
         start_star := false,
         finish_star := false }] := by decide

/-- C3 counterexample: for the joined pair with identifier-row MS1010 Design
freeze and equal dates, the emitted record has work_type Other, not
Milestone (the milestone default inspects the description Design freeze,
which does not start with MS). -/
theorem claim_C3_counterexample :
    (extract [pgMS]).map (·.work_type) = ["Other"] ∧
    (extract [pgMS]).map (·.work_type) ≠ ["Milestone"] ∧
    (extract [pgMS]).map (·.is_milestone) = [true] := by decide

/-- C3 (amended): for the MS1010 Design freeze pair with equal dates the
emitted record has is_milestone true but work_type "Other": infer_work_type
applies the milestone default to the description, not to the identifier.
In general the classifier returns "Milestone" exactly when no static rule
matches the lowercased description and the uppercased description itself
starts with MS. -/
theorem claim_C3_amended :
    (∀ name : String,
        infer_work_type name = "Milestone" ↔
          (WORKTYPE_RULES.find? (fun r => ruleMatches (pyLowerC name.data) r.2) = none ∧
           ['M', 'S'].isPrefixOf (pyUpperC name.data) = true)) ∧
    (extract [pgMS]).map (fun r => (r.activity_id, r.work_type, r.is_milestone)) =
      [("MS1010", "Other", true)] := by
  constructor
  · intro name
    have hlab : ∀ x ∈ WORKTYPE_RULES, x.1 ≠ "Milestone" := by decide
    unfold infer_work_type
    cases hf : WORKTYPE_RULES.find? (fun r => ruleMatches (pyLowerC name.data) r.2) with
    | some r =>
      constructor
      · intro h
        exact absurd h (hlab r (List.mem_of_find?_eq_some hf))
      · intro h
        exact Option.noConfusion h.1
    | none =>
      by_cases hp : ['M', 'S'].isPrefixOf (pyUpperC name.data) = true
      · rw [if_pos hp]
        exact ⟨fun _ => ⟨rfl, hp⟩, fun _ => rfl⟩
      · rw [if_neg hp]
        constructor
        · intro h
          exact absurd h (by decide)
        · intro h
          exact absurd h.2 hp
  · decide

/-! Inversion lemmas for the join-loop body. -/

/-- Everything that must have held when joinStep emitted a record, and the
exact shape of the emitted record and updated context. -/
theorem joinStep_emit (ctx : Context) (ids : List IdLine) (pi tp : Nat)
    (dl : DateLine) (ctx1 : Context) (r : Record)
    (h : joinStep ctx ids pi tp dl = (ctx1, some r)) :
    ∃ lr dist fin st rest sd fd,
      nearest_id ids dl.ymid = (some lr, dist) ∧
      qLtB Y_JOIN_MAX dist = false ∧
      dl.dates.reverse = fin :: st :: rest ∧
      parse_iso st.iso = some sd ∧
      parse_iso fin.iso = some fd ∧
      ¬ toOrdinal fd - toOrdinal sd < 0 ∧
      ctx1 = (if is_package_code lr.activity_id then
                { ctx with package_code := some lr.activity_id,
                           package_name := some lr.activity_name }
              else ctx) ∧
      r = { major_group := ctx1.major_group.getD "Unknown",
            package_code := ctx1.package_code,
            package_name := ctx1.package_name,
            activity_id := lr.activity_id,
            activity_name := lr.activity_name,
            work_type := infer_work_type lr.activity_name,
            start := sd,
            finish := fd,
            duration_days := toOrdinal fd - toOrdinal sd,
            is_milestone := decide (sd = fd),
            source_page := pi + 1,
            pdf_pages := tp,
            start_star := st.star,
            finish_star := fin.star } := by
  unfold joinStep at h
  rcases hn : nearest_id ids dl.ymid with ⟨lr?, dist⟩
  rw [hn] at h
  cases lr? with
  | none => simp at h
  | some lr =>
    dsimp only [] at h
    by_cases hd : qLtB Y_JOIN_MAX dist = true
    · rw [if_pos hd] at h
      simp at h
    · rw [if_neg hd] at h
      cases hrev : dl.dates.reverse with
      | nil => rw [hrev] at h; simp at h
      | cons fin tl =>
        cases tl with
        | nil => rw [hrev] at h; simp at h
        | cons st rest =>
          rw [hrev] at h
          dsimp only [] at h
          cases hs : parse_iso st.iso with
          | none => rw [hs] at h; simp at h
          | some sd =>
            cases hf2 : parse_iso fin.iso with
            | none => rw [hs, hf2] at h; simp at h
            | some fd =>
              rw [hs, hf2] at h
              dsimp only [] at h
              by_cases hdur : toOrdinal fd - toOrdinal sd < 0
              · rw [if_pos hdur] at h
                simp at h
              · rw [if_neg hdur] at h
                rw [Prod.mk.injEq] at h
                obtain ⟨h1, h2⟩ := h
                rw [Option.some.injEq] at h2
                refine ⟨lr, dist, fin, st, rest, sd, fd, rfl, Bool.eq_false_iff.mpr hd,
                  ?_, hs, hf2, hdur, h1.symm, ?_⟩
                · rfl
                · rw [← h2, ← h1]

/-- When joinStep emits nothing, the context is unchanged. -/
theorem joinStep_skip (ctx : Context) (ids : List IdLine) (pi tp : Nat)
    (dl : DateLine) (ctx1 : Context)
    (h : joinStep ctx ids pi tp dl = (ctx1, none)) : ctx1 = ctx := by
  unfold joinStep at h
  rcases hn : nearest_id ids dl.ymid with ⟨lr?, dist⟩
  rw [hn] at h
  cases lr? with
  | none =>
    dsimp only [] at h
    rw [Prod.mk.injEq] at h
    exact h.1.symm
  | some lr =>
    dsimp only [] at h
    by_cases hd : qLtB Y_JOIN_MAX dist = true
    · rw [if_pos hd] at h
      rw [Prod.mk.injEq] at h
      exact h.1.symm
    · rw [if_neg hd] at h
      cases hrev : dl.dates.reverse with
      | nil =>
        rw [hrev] at h
        dsimp only [] at h
        rw [Prod.mk.injEq] at h
        exact h.1.symm
      | cons fin tl =>
        cases tl with
        | nil =>
          rw [hrev] at h
          dsimp only [] at h
          rw [Prod.mk.injEq] at h
          exact h.1.symm
        | cons st rest =>
          rw [hrev] at h
          dsimp only [] at h
          cases hs : parse_iso st.iso with
          | none =>
            rw [hs] at h
            dsimp only [] at h
            rw [Prod.mk.injEq] at h
            exact h.1.symm
          | some sd =>
            cases hf2 : parse_iso fin.iso with
            | none =>
              rw [hs, hf2] at h
              dsimp only [] at h
              rw [Prod.mk.injEq] at h
              exact h.1.symm
            | some fd =>
              rw [hs, hf2] at h
              dsimp only [] at h
              by_cases hdur : toOrdinal fd - toOrdinal sd < 0
              · rw [if_pos hdur] at h
                rw [Prod.mk.injEq] at h
                exact h.1.symm
              · rw [if_neg hdur] at h
                simp at h

/-- One page with an identifier-row and a date-row whose two tokens are
shape-valid but calendar-invalid (month 13). -/
def badWords : List Word :=
  [⟨qN 10, qN 98, qN 30, qN 102, "AA100", 0, 0, 0⟩,
   ⟨qN 35, qN 98, qN 60, qN 102, "alpha", 0, 0, 1⟩,
   ⟨qN 100, qN 100, qN 140, qN 103, "2025-13-01", 0, 1, 0⟩,
   ⟨qN 160, qN 100, qN 200, qN 103, "2025-13-02", 0, 1, 1⟩]

def pgBadDate : Page := ⟨[], badWords⟩

/-- A hand-built date-row carrying the two month-13 tokens. -/
def dlBad : DateLine :=
  ⟨qN 0, [⟨0, "2025-13-01", false⟩, ⟨1, "2025-13-02", false⟩], "2025-13-01 | 2025-13-02"⟩

/-- C5 counterexample: a token whose month field exceeds 12 is not rejected
by the date token reconstructor — extract_dates_from_tokens does produce a
reconstructed date item for 2025-13-01 (calendar validation only happens
later, at parse_iso). -/
theorem claim_C5_counterexample :
    extract_dates_from_tokens ["2025-13-01"] ≠ [] ∧
    extract_dates_from_tokens ["2025-13-01"] = [⟨0, "2025-13-01", false⟩] ∧
    parse_iso "2025-13-01" = none := by decide

/-- C5 (amended): the date token reconstructor checks only the digit shape,
so a calendar-invalid token such as 2025-13-01 does produce a reconstructed
date item; the join loop then discards any pair whose start or finish fails
calendar parsing, so such a token is never coerced into a date and never
reaches an emitted record. -/
theorem claim_C5_amended (ctx : Context) (id_lines : List IdLine)
    (page_i total_pages : Nat) (dl : DateLine) (fin st : RawDate)
    (rest : List RawDate)
    (hrev : dl.dates.reverse = fin :: st :: rest)
    (hbad : parse_iso st.iso = none ∨ parse_iso fin.iso = none) :
    joinStep ctx id_lines page_i total_pages dl = (ctx, none) ∧
    extract_dates_from_tokens ["2025-13-01"] = [⟨0, "2025-13-01", false⟩] ∧
    extract [pgBadDate] = [] := by
  refine ⟨?_, by decide, by decide⟩
  rcases hj : joinStep ctx id_lines page_i total_pages dl with ⟨ctx1, r?⟩
  cases r? with
  | none =>
    rw [joinStep_skip ctx id_lines page_i total_pages dl ctx1 hj]
  | some r =>
    exfalso
    obtain ⟨lr, dist, fin2, st2, rest2, sd, fd, _hn, _hd, hrev2, hs, hf2, _hdur, _hctx, _hr⟩ :=
      joinStep_emit ctx id_lines page_i total_pages dl ctx1 r hj
    rw [hrev] at hrev2
    injection hrev2 with e1 h'
    injection h' with e2 _
    rcases hbad with hb | hb
    · rw [← e2] at hs
      rw [hb] at hs
      exact Option.noConfusion hs
    · rw [← e1] at hf2
      rw [hb] at hf2
      exact Option.noConfusion hf2

theorem claim_C5_witness :
    joinStep ⟨none, none, none⟩ [] 0 1 dlBad = (⟨none, none, none⟩, none) ∧
    extract_dates_from_tokens ["2025-13-01"] = [⟨0, "2025-13-01", false⟩] ∧
    extract [pgBadDate] = [] :=
  claim_C5_amended ⟨none, none, none⟩ [] 0 1 dlBad
    ⟨1, "2025-13-02", false⟩ ⟨0, "2025-13-01", false⟩ []
    (by decide) (Or.inl (by decide))

/-- A second page with a plain activity row (no package identifier). -/
def ddWords : List Word :=
  [⟨qN 10, qN 48, qN 30, qN 52, "DD1050", 0, 0, 0⟩,
   ⟨qN 35, qN 48, qN 60, qN 52, "Issue", 0, 0, 1⟩,
   ⟨qN 62, qN 48, qN 80, qN 52, "pile", 0, 0, 2⟩,
   ⟨qN 82, qN 48, qN 99, qN 52, "drawing", 0, 0, 3⟩,
   ⟨qN 100, qN 50, qN 140, qN 53, "2025-04-01", 0, 1, 0⟩,
   ⟨qN 160, qN 50, qN 200, qN 53, "2025-05-01", 0, 1, 1⟩]

def pgDD : Page := ⟨[], ddWords⟩

/-- A third page that redefines the package (A10) and then has another
plain activity row below it. -/
def a10Words : List Word :=
  [⟨qN 10, qN 18, qN 30, qN 22, "A10", 0, 0, 0⟩,
   ⟨qN 35, qN 18, qN 60, qN 22, "Bravo", 0, 0, 1⟩,
   ⟨qN 100, qN 20, qN 140, qN 23, "2025-06-01", 0, 1, 0⟩,
   ⟨qN 160, qN 20, qN 200, qN 23, "2025-06-10", 0, 1, 1⟩,
   ⟨qN 10, qN 58, qN 30, qN 62, "EE200", 1, 0, 0⟩,
   ⟨qN 35, qN 58, qN 60, qN 62, "gamma", 1, 0, 1⟩,
   ⟨qN 100, qN 60, qN 140, qN 63, "2025-06-05", 1, 1, 0⟩,
   ⟨qN 160, qN 60, qN 200, qN 63, "2025-06-20", 1, 1, 1⟩]

def pgA10 : Page := ⟨[], a10Words⟩

def docS01DD3 : List Page := [pgS01, pgDD, pgA10]

/-- C6: a package-identifier row updates the context before its own record
is stamped, so its record carries its own code; later records (same or
later pages) inherit that package context until a later package row
overwrites it.  Concretely, S01 Piling works yields identifier S01 with
package_code S01; the DD1050 row on the next page inherits S01; and the
later package row A10 overwrites it for the EE200 row that follows. -/
theorem claim_C6 :
    (∀ ctx ids pi tp dl ctx1 r, joinStep ctx ids pi tp dl = (ctx1, some r) →
      (is_package_code r.activity_id = true →
        r.package_code = some r.activity_id ∧
        ctx1.package_code = some r.activity_id ∧
        ctx1.package_name = some r.activity_name) ∧
      (is_package_code r.activity_id = false →
        r.package_code = ctx.package_code ∧ ctx1 = ctx)) ∧
    (extract docS01DD3).map (fun r => (r.activity_id, r.package_code)) =
      [("A10", some "A10"), ("EE200", some "A10"),
       ("S01", some "S01"), ("DD1050", some "S01")] := by
  constructor
  · intro ctx ids pi tp dl ctx1 r h
    obtain ⟨lr, dist, fin, st, rest, sd, fd, _, _, _, _, _, _, hctx, hr⟩ :=
      joinStep_emit ctx ids pi tp dl ctx1 r h
    subst hr
    by_cases hp : is_package_code lr.activity_id = true
    · rw [if_pos hp] at hctx
      subst hctx
      refine ⟨fun _ => ⟨rfl, rfl, rfl⟩, fun hFalse => ?_⟩
      rw [hp] at hFalse
      exact Bool.noConfusion hFalse
    · rw [if_neg hp] at hctx
      subst hctx
      refine ⟨fun hTrue => absurd hTrue hp, fun _ => ⟨rfl, rfl⟩⟩
  · decide

def idS01 : IdLine := ⟨⟨200, 2⟩, "S01", "Piling works", "S01 | Piling | works"⟩

def dlS01 : DateLine :=
  ⟨⟨203, 2⟩, [⟨0, "2025-01-01", false⟩, ⟨1, "2025-03-15", false⟩],
   "2025-01-01 | 2025-03-15"⟩

theorem claim_C6_witness :
    s01Record.package_code = some s01Record.activity_id ∧
    (⟨some "S01", some "Piling works", none⟩ : Context).package_code =
      some s01Record.activity_id ∧
    (⟨some "S01", some "Piling works", none⟩ : Context).package_name =
      some s01Record.activity_name :=
  (claim_C6.1 ⟨none, none, none⟩ [idS01] 0 1 dlS01
    ⟨some "S01", some "Piling works", none⟩ s01Record (by decide)).1 (by decide)

/-- The collision page: two date-rows both nearest to the first of two
identifier-rows, although a one-to-one assignment within the bound exists. -/
def c9Words : List Word :=
  [⟨qN 10, qN 18, qN 30, qN 22, "AA100", 0, 0, 0⟩,
   ⟨qN 35, qN 18, qN 60, qN 22, "alpha", 0, 0, 1⟩,
   ⟨qN 10, qN 34, qN 30, qN 38, "AB200", 1, 0, 0⟩,
   ⟨qN 35, qN 34, qN 60, qN 38, "beta", 1, 0, 1⟩,
   ⟨qN 100, qN 20, qN 140, qN 23, "2025-01-01", 2, 0, 0⟩,
   ⟨qN 160, qN 20, qN 200, qN 23, "2025-01-02", 2, 0, 1⟩,
   ⟨qN 100, qN 25, qN 140, qN 29, "2025-02-01", 3, 0, 0⟩,
   ⟨qN 160, qN 25, qN 200, qN 29, "2025-02-03", 3, 0, 1⟩]

def pgC9 : Page := ⟨[], c9Words⟩

/-- C9 counterexample: on pgC9 the identifier-rows sit at ymid 20 and 36 and
the date-rows at ymid 21.5 and 27; both date-rows are matched to the first
identifier-row (two AA100 records are emitted) even though pairing the
second date-row with the second identifier-row (distance 9, within the
bound of 14) would have given a one-to-one mapping; no join is discarded by
any collision rule. -/
theorem claim_C9_counterexample :
    (extract [pgC9]).map (·.activity_id) = ["AA100", "AA100"] ∧
    (extract [pgC9]).length = 2 ∧
    qLeB (qAbs (qSub (qN 36) ⟨54, 2⟩)) Y_JOIN_MAX = true := by decide

theorem joinStep_isSome_ctx (ctx ctx' : Context) (ids : List IdLine) (pi tp : Nat)
    (dl : DateLine) :
    (joinStep ctx ids pi tp dl).2.isSome = (joinStep ctx' ids pi tp dl).2.isSome := by
  unfold joinStep
  rcases hn : nearest_id ids dl.ymid with ⟨lr?, dist⟩
  cases lr? with
  | none => rfl
  | some lr =>
    dsimp only []
    by_cases hd : qLtB Y_JOIN_MAX dist = true
    · rw [if_pos hd, if_pos hd]
    · rw [if_neg hd, if_neg hd]
      cases dl.dates.reverse with
      | nil => rfl
      | cons fin tl =>
        cases tl with
        | nil => rfl
        | cons st rest =>
          dsimp only []
          cases parse_iso st.iso with
          | none => rfl
          | some sd =>
            cases parse_iso fin.iso with
            | none => rfl
            | some fd =>
              dsimp only []
              by_cases hdur : toOrdinal fd - toOrdinal sd < 0
              · rw [if_pos hdur, if_pos hdur]
              · rw [if_neg hdur, if_neg hdur]
                rfl

theorem pageJoin_length (ids : List IdLine) (pi tp : Nat) :
    ∀ dls ctx, (pageJoin ctx ids pi tp dls).2.length =
      dls.countP (fun dl => (joinStep ctx ids pi tp dl).2.isSome) := by
  intro dls
  induction dls with
  | nil => intro ctx; rfl
  | cons dl rest ih =>
    intro ctx
    rw [List.countP_cons]
    unfold pageJoin
    rcases hj : joinStep ctx ids pi tp dl with ⟨ctx1, r?⟩
    cases r? with
    | none =>
      have hc : ctx1 = ctx := joinStep_skip ctx ids pi tp dl ctx1 hj
      subst hc
      rw [ih ctx1]
      simp
    | some r =>
      dsimp only []
      rw [List.length_cons, ih ctx1]
      have hcong : rest.countP (fun dl => (joinStep ctx1 ids pi tp dl).2.isSome) =
          rest.countP (fun dl => (joinStep ctx ids pi tp dl).2.isSome) := by
        refine List.countP_congr (fun a _ => ?_)
        rw [joinStep_isSome_ctx ctx1 ctx]
      rw [hcong]
      simp

/-- C9 (amended): the join engine performs no collision resolution.  Each
date-row is matched to its nearest identifier-row independently of every
other date-row (whether a date-row joins does not depend on the threaded
context, and the number of emitted records equals the number of date-rows
whose own join succeeds, so no join is discarded in favour of a closer
one); two date-rows can be matched to the same identifier-row even when a
one-to-one mapping at acceptable distances is feasible, as on pgC9 where
both date-rows join AA100 and both records are kept. -/
theorem claim_C9_amended :
    (∀ ctx ctx' ids pi tp dl,
      (joinStep ctx ids pi tp dl).2.isSome = (joinStep ctx' ids pi tp dl).2.isSome) ∧
    (∀ ids pi tp dls ctx,
      (pageJoin ctx ids pi tp dls).2.length =
        dls.countP (fun dl => (joinStep ctx ids pi tp dl).2.isSome)) ∧
    (extract [pgC9]).map (·.activity_id) = ["AA100", "AA100"] := by
  refine ⟨fun ctx ctx' ids pi tp dl => joinStep_isSome_ctx ctx ctx' ids pi tp dl,
    fun ids pi tp dls ctx => pageJoin_length ids pi tp dls ctx, by decide⟩

/-! Major-group carry-forward. -/

theorem majorGroupStep_isSome (g : String) (ln : String) :
    (majorGroupStep (some g) ln).isSome = true := by
  unfold majorGroupStep
  dsimp only []
  repeat' split
  all_goals rfl

theorem foldl_majorGroupStep_isSome (lns : List String) :
    ∀ g : String, ((lns.foldl majorGroupStep (some g)).isSome = true) := by
  induction lns with
  | nil => intro g; rfl
  | cons ln rest ih =>
    intro g
    rw [List.foldl_cons]
    obtain ⟨g', hg⟩ := Option.isSome_iff_exists.mp (majorGroupStep_isSome g ln)
    rw [hg]
    exact ih g'

/-- joinStep never touches the major-group component of the context. -/
theorem joinStep_major_group (ctx : Context) (ids : List IdLine) (pi tp : Nat)
    (dl : DateLine) : (joinStep ctx ids pi tp dl).1.major_group = ctx.major_group := by
  rcases hj : joinStep ctx ids pi tp dl with ⟨ctx1, r?⟩
  cases r? with
  | none => rw [joinStep_skip ctx ids pi tp dl ctx1 hj]
  | some r =>
    obtain ⟨lr, _, _, _, _, _, _, _, _, _, _, _, _, hctx, _⟩ :=
      joinStep_emit ctx ids pi tp dl ctx1 r hj
    subst hctx
    by_cases hp : is_package_code lr.activity_id = true
    · rw [if_pos hp]
    · rw [if_neg hp]

/-- Every record emitted by the join loop is stamped with the major group
the context carried into the loop. -/
theorem pageJoin_major_group (ids : List IdLine) (pi tp : Nat) :
    ∀ dls ctx r, r ∈ (pageJoin ctx ids pi tp dls).2 →
      r.major_group = ctx.major_group.getD "Unknown" := by
  intro dls
  induction dls with
  | nil => intro ctx r hr; exact absurd hr (List.not_mem_nil r)
  | cons dl rest ih =>
    intro ctx r hr
    unfold pageJoin at hr
    rcases hj : joinStep ctx ids pi tp dl with ⟨ctx1, r?⟩
    rw [hj] at hr
    have hmg : ctx1.major_group = ctx.major_group := by
      have := joinStep_major_group ctx ids pi tp dl
      rw [hj] at this
      exact this
    cases r? with
    | none =>
      have h2 := ih ctx1 r hr
      rw [hmg] at h2
      exact h2
    | some r0 =>
      dsimp only [] at hr
      rcases List.mem_cons.mp hr with he | htl
      · rw [he]
        obtain ⟨lr, dist, fin, st, rest2, sd, fd, _, _, _, _, _, _, _, hr0⟩ :=
          joinStep_emit ctx ids pi tp dl ctx1 r0 hj
        rw [hr0]
        dsimp only []
        rw [hmg]
      · have h2 := ih ctx1 r htl
        rw [hmg] at h2
        exact h2

/-- Two pages: a heading-only page announcing Procurement, then a data page
with no heading. -/
def docProc : List Page := [⟨["Main Schedule", "Procurement"], []⟩, ⟨[], s01Words⟩]

/-- C7: the major-group context persists across page boundaries and is never
rolled back — a heading update never resets an already-set group to none,
and a whole heading scan keeps it set; on a document whose first page reads
Procurement and whose second page has a data row and no heading, the record
emitted from page 2 carries Procurement; a record assembled before any
heading has been seen carries Unknown. -/
theorem claim_C7 :
    (∀ g ln, (majorGroupStep (some g) ln).isSome = true) ∧
    (∀ (lns : List String) (g : String),
      (lns.foldl majorGroupStep (some g)).isSome = true) ∧
    (extract docProc).map (·.major_group) = ["Procurement"] ∧
    (extract [pgS01]).map (·.major_group) = ["Unknown"] := by
  refine ⟨majorGroupStep_isSome, fun lns g => foldl_majorGroupStep_isSome lns g,
    by decide, by decide⟩

/-- C10: every record of one page carries the same major group, namely the
result of folding the heading scan over the whole page text before any row
is joined (the last matching heading line wins; with no match the carried
value stays; with nothing ever set the record reads Unknown). -/
theorem claim_C10 (ctx : Context) (pi tp : Nat) (pg : Page) (r : Record)
    (h : r ∈ (processPage ctx pi tp pg).2) :
    r.major_group = (pg.text.foldl majorGroupStep ctx.major_group).getD "Unknown" := by
  unfold processPage at h
  by_cases hw : pg.words.isEmpty = true
  · rw [if_pos hw] at h
    exact absurd h (List.not_mem_nil r)
  · rw [if_neg hw] at h
    dsimp only [] at h
    by_cases hcond : ((sortLe (fun a b => qLeB a.ymid b.ymid)
          (classify (build_lines pg.words)).1).isEmpty ||
        (sortLe (fun a b => qLeB a.ymid b.ymid)
          (classify (build_lines pg.words)).2).isEmpty) = true
    · rw [if_pos hcond] at h
      exact absurd h (List.not_mem_nil r)
    · rw [if_neg hcond] at h
      exact pageJoin_major_group _ pi tp _ _ r h

theorem claim_C10_witness :
    s01Record.major_group =
      ((pgS01.text.foldl majorGroupStep (none : Option String)).getD "Unknown") :=
  claim_C10 ⟨none, none, none⟩ 0 1 pgS01 s01Record (by decide)

/-! Membership through the sorter, the de-duplicator and the page loop. -/

theorem mem_insertLe (leB : α → α → Bool) (x a : α) :
    ∀ l, a ∈ insertLe leB x l ↔ a = x ∨ a ∈ l := by
  intro l
  induction l with
  | nil => simp [insertLe]
  | cons y ys ih =>
    unfold insertLe
    by_cases hc : leB y x = true
    · rw [if_pos hc]
      simp only [List.mem_cons, ih]
      tauto
    · rw [if_neg hc]
      simp only [List.mem_cons]

theorem mem_sortLe_aux (leB : α → α → Bool) :
    ∀ (l acc : List α) (a : α),
      a ∈ l.foldl (fun acc x => insertLe leB x acc) acc ↔ a ∈ acc ∨ a ∈ l := by
  intro l
  induction l with
  | nil => simp
  | cons x xs ih =>
    intro acc a
    rw [List.foldl_cons, ih, mem_insertLe]
    simp only [List.mem_cons]
    tauto

theorem mem_sortLe (leB : α → α → Bool) (l : List α) (a : α) :
    a ∈ sortLe leB l ↔ a ∈ l := by
  unfold sortLe
  rw [mem_sortLe_aux]
  simp

theorem dedupRecords_subset :
    ∀ (l : List Record) (seen : List (String × PDate × PDate)) (r : Record),
      r ∈ dedupRecords l seen → r ∈ l := by
  intro l
  induction l with
  | nil => intro seen r h; exact absurd h (List.not_mem_nil r)
  | cons x xs ih =>
    intro seen r h
    unfold dedupRecords at h
    by_cases hc : recordKey x ∈ seen
    · rw [if_pos hc] at h
      exact List.mem_cons_of_mem x (ih _ r h)
    · rw [if_neg hc] at h
      rcases List.mem_cons.mp h with he | htl
      · rw [he]
        exact List.mem_cons_self x xs
      · exact List.mem_cons_of_mem x (ih _ r htl)

/-- Every finalized record is one of the assembled ones. -/
theorem mem_extract_subset (pages : List Page) (r : Record) (h : r ∈ extract pages) :
    r ∈ extractRows pages := by
  unfold extract finalize at h
  rw [mem_sortLe] at h
  exact dedupRecords_subset _ _ r h

theorem pageJoin_duration (ids : List IdLine) (pi tp : Nat) :
    ∀ dls ctx r, r ∈ (pageJoin ctx ids pi tp dls).2 →
      0 ≤ r.duration_days ∧ r.duration_days = toOrdinal r.finish - toOrdinal r.start := by
  intro dls
  induction dls with
  | nil => intro ctx r hr; exact absurd hr (List.not_mem_nil r)
  | cons dl rest ih =>
    intro ctx r hr
    unfold pageJoin at hr
    rcases hj : joinStep ctx ids pi tp dl with ⟨ctx1, r?⟩
    rw [hj] at hr
    cases r? with
    | none => exact ih ctx1 r hr
    | some r0 =>
      dsimp only [] at hr
      rcases List.mem_cons.mp hr with he | htl
      · rw [he]
        obtain ⟨lr, dist, fin, st, rest2, sd, fd, _, _, _, _, _, hdur, _, hr0⟩ :=
          joinStep_emit ctx ids pi tp dl ctx1 r0 hj
        rw [hr0]
        dsimp only []
        exact ⟨Int.not_lt.mp hdur, rfl⟩
      · exact ih ctx1 r htl

theorem processPage_duration (ctx : Context) (pi tp : Nat) (pg : Page) (r : Record)
    (h : r ∈ (processPage ctx pi tp pg).2) :
    0 ≤ r.duration_days ∧ r.duration_days = toOrdinal r.finish - toOrdinal r.start := by
  unfold processPage at h
  by_cases hw : pg.words.isEmpty = true
  · rw [if_pos hw] at h
    exact absurd h (List.not_mem_nil r)
  · rw [if_neg hw] at h
    dsimp only [] at h
    by_cases hcond : ((sortLe (fun a b => qLeB a.ymid b.ymid)
          (classify (build_lines pg.words)).1).isEmpty ||
        (sortLe (fun a b => qLeB a.ymid b.ymid)
          (classify (build_lines pg.words)).2).isEmpty) = true
    · rw [if_pos hcond] at h
      exact absurd h (List.not_mem_nil r)
    · rw [if_neg hcond] at h
      exact pageJoin_duration _ pi tp _ _ r h

theorem extractPagesLoop_duration (tp : Nat) :
    ∀ (pages : List Page) (ctx : Context) (i : Nat) (r : Record),
      r ∈ (extractPagesLoop ctx tp i pages).2 →
      0 ≤ r.duration_days ∧ r.duration_days = toOrdinal r.finish - toOrdinal r.start := by
  intro pages
  induction pages with
  | nil => intro ctx i r h; exact absurd h (List.not_mem_nil r)
  | cons pg rest ih =>
    intro ctx i r h
    unfold extractPagesLoop at h
    dsimp only [] at h
    rcases List.mem_append.mp h with h1 | h2
    · exact processPage_duration ctx i tp pg r h1
    · exact ih _ _ r h2

/-- C2: every assembled record satisfies finish at or after start
(equivalently a non-negative duration); a pair with finish before start is
dropped inside the join loop and therefore never reaches the finalizer, so
the invariant also holds for every finalized output record. -/
theorem claim_C2 (pages : List Page) :
    (∀ r ∈ extractRows pages,
      0 ≤ r.duration_days ∧ toOrdinal r.start ≤ toOrdinal r.finish ∧
      r.duration_days = toOrdinal r.finish - toOrdinal r.start) ∧
    (∀ r ∈ extract pages,
      0 ≤ r.duration_days ∧ toOrdinal r.start ≤ toOrdinal r.finish) := by
  have hrows : ∀ r ∈ extractRows pages,
      0 ≤ r.duration_days ∧ toOrdinal r.start ≤ toOrdinal r.finish ∧
      r.duration_days = toOrdinal r.finish - toOrdinal r.start := by
    intro r hr
    obtain ⟨h1, h2⟩ := extractPagesLoop_duration pages.length pages ⟨none, none, none⟩ 0 r hr
    refine ⟨h1, ?_, h2⟩
    omega
  refine ⟨hrows, fun r hr => ?_⟩
  obtain ⟨h1, h2, _⟩ := hrows r (mem_extract_subset pages r hr)
  exact ⟨h1, h2⟩

theorem claim_C2_witness :
    0 ≤ s01Record.duration_days ∧
    toOrdinal s01Record.start ≤ toOrdinal s01Record.finish :=
  (claim_C2 [pgS01]).2 s01Record (by decide)

/-! Order facts for the fraction comparisons (positive denominators). -/

theorem qLeB_refl (a : Q) : qLeB a a = true := by
  simp [qLeB]

theorem qLtB_irrefl (a : Q) : qLtB a a = false := by
  simp [qLtB]

theorem qLtB_le (a b : Q) (h : qLtB a b = true) : qLeB a b = true := by
  unfold qLtB at h
  unfold qLeB
  rw [decide_eq_true_eq] at h
  rw [decide_eq_true_eq]
  exact le_of_lt h

theorem not_qLtB_le (a b : Q) (h : qLtB a b = false) : qLeB b a = true := by
  unfold qLtB at h
  unfold qLeB
  rw [decide_eq_false_iff_not] at h
  rw [decide_eq_true_eq]
  exact Int.not_lt.mp h

theorem qLeB_trans (a b c : Q) (hb : 0 < b.den)
    (h1 : qLeB a b = true) (h2 : qLeB b c = true) : qLeB a c = true := by
  unfold qLeB at h1 h2 ⊢
  rw [decide_eq_true_eq] at h1 h2
  rw [decide_eq_true_eq]
  have hbi : (0 : Int) < (b.den : Int) := by exact_mod_cast hb
  have hai : (0 : Int) ≤ (a.den : Int) := Int.natCast_nonneg _
  have hci : (0 : Int) ≤ (c.den : Int) := Int.natCast_nonneg _
  nlinarith [mul_le_mul_of_nonneg_right h1 hci, mul_le_mul_of_nonneg_right h2 hai]

theorem qLeB_qLtB_trans (a b c : Q) (ha : 0 < a.den) (hb : 0 < b.den)
    (h1 : qLeB a b = true) (h2 : qLtB b c = true) : qLtB a c = true := by
  unfold qLeB at h1
  unfold qLtB at h2 ⊢
  rw [decide_eq_true_eq] at h1 h2
  rw [decide_eq_true_eq]
  have hbi : (0 : Int) < (b.den : Int) := by exact_mod_cast hb
  have hai : (0 : Int) < (a.den : Int) := by exact_mod_cast ha
  have hci : (0 : Int) ≤ (c.den : Int) := Int.natCast_nonneg _
  nlinarith [mul_le_mul_of_nonneg_right h1 hci, mul_lt_mul_of_pos_right h2 hai]

theorem qAbs_den (q : Q) : (qAbs q).den = q.den := by
  unfold qAbs
  split <;> rfl

theorem qSub_den (a b : Q) : (qSub a b).den = a.den * b.den := rfl

/-- The scan of nearest_id: the final distance never exceeds the starting
sentinel, never exceeds the distance of any scanned row, and the final best
is either the starting best with its distance or some scanned row with its
own distance. -/
theorem nearestIdAux_spec (y : Q) (hy : 0 < y.den) :
    ∀ (l : List IdLine) (best : Option IdLine) (best_d : Q),
      (∀ r ∈ l, 0 < r.ymid.den) → 0 < best_d.den →
      0 < (nearestIdAux y l best best_d).2.den ∧
      qLeB (nearestIdAux y l best best_d).2 best_d = true ∧
      (∀ r ∈ l, qLeB (nearestIdAux y l best best_d).2 (qAbs (qSub r.ymid y)) = true) ∧
      ((nearestIdAux y l best best_d).1 = best ∧
          (nearestIdAux y l best best_d).2 = best_d ∨
        ∃ r ∈ l, (nearestIdAux y l best best_d).1 = some r ∧
          (nearestIdAux y l best best_d).2 = qAbs (qSub r.ymid y)) := by
  intro l
  induction l with
  | nil =>
    intro best best_d _ hbd
    exact ⟨hbd, qLeB_refl _, by simp, Or.inl ⟨rfl, rfl⟩⟩
  | cons r rs ih =>
    intro best best_d hl hbd
    have hrden : 0 < (qAbs (qSub r.ymid y)).den := by
      rw [qAbs_den, qSub_den]
      exact Nat.mul_pos (hl r (List.mem_cons_self r rs)) hy
    have hltail : ∀ r' ∈ rs, 0 < r'.ymid.den :=
      fun r' hr' => hl r' (List.mem_cons_of_mem r hr')
    unfold nearestIdAux
    dsimp only []
    by_cases hlt : qLtB (qAbs (qSub r.ymid y)) best_d = true
    · rw [if_pos hlt]
      obtain ⟨ih1, ih2, ih3, ih4⟩ := ih (some r) (qAbs (qSub r.ymid y)) hltail hrden
      refine ⟨ih1, ?_, ?_, ?_⟩
      · exact qLeB_trans _ _ _ hrden ih2 (qLtB_le _ _ hlt)
      · intro r' hr'
        rcases List.mem_cons.mp hr' with he | htl
        · rw [he]
          exact ih2
        · exact ih3 r' htl
      · rcases ih4 with ⟨hb1, hb2⟩ | ⟨r', hr', hb1, hb2⟩
        · exact Or.inr ⟨r, List.mem_cons_self r rs, hb1, hb2⟩
        · exact Or.inr ⟨r', List.mem_cons_of_mem r hr', hb1, hb2⟩
    · rw [if_neg hlt]
      have hle : qLeB best_d (qAbs (qSub r.ymid y)) = true :=
        not_qLtB_le _ _ (Bool.not_eq_true _ ▸ hlt)
      obtain ⟨ih1, ih2, ih3, ih4⟩ := ih best best_d hltail hbd
      refine ⟨ih1, ih2, ?_, ?_⟩
      · intro r' hr'
        rcases List.mem_cons.mp hr' with he | htl
        · rw [he]
          exact qLeB_trans _ _ _ hbd ih2 hle
        · exact ih3 r' htl
      · rcases ih4 with ⟨hb1, hb2⟩ | ⟨r', hr', hb1, hb2⟩
        · exact Or.inl ⟨hb1, hb2⟩
        · exact Or.inr ⟨r', List.mem_cons_of_mem r hr', hb1, hb2⟩

/-- Modelled from the spec: the offset-estimating join of section 4.5 of the
specification, which the code does not implement.  The median (middle of
the sorted list, mean of the middle two for an even count) of the signed
nearest-row differences recorded below a generous bound gives the page
offset; each date-row is then paired with the identifier-row closest to
date_row.ymid + offset, and dropped when that distance exceeds the join
bound. -/
def median (l : List Q) : Q :=
  let s := sortLe qLeB l
  if s.length % 2 = 1 then s.getD (s.length / 2) (qN 0)
  else qHalf (qAdd (s.getD (s.length / 2 - 1) (qN 0)) (s.getD (s.length / 2) (qN 0)))

/-- Modelled from the spec: steps 2 and 3 of the row join engine as the
specification describes them (estimate a per-page vertical offset as the
median of the signed y_mid differences between each date-row and its
nearest identifier-row, then pair each date-row with the identifier-row
whose y_mid is closest to date_row.y_mid + offset, discarding date-rows
with no identifier-row within the absolute bound). -/
def specOffsetJoin (id_lines : List IdLine) (date_lines : List DateLine)
    (generousBound joinBound : Q) : List (DateLine × IdLine) :=
  let diffs := date_lines.filterMap (fun dl =>
    match nearest_id id_lines dl.ymid with
    | (some r, d) => if qLtB d generousBound then some (qSub r.ymid dl.ymid) else none
    | (none, _) => none)
  let offset := median diffs
  date_lines.filterMap (fun dl =>
    match nearest_id id_lines (qAdd dl.ymid offset) with
    | (some r, d) => if qLeB d joinBound then some (dl, r) else none
    | (none, _) => none)

def exIdA : IdLine := ⟨qN 0, "AA100", "alpha", "AA100 | alpha"⟩

def exIdB : IdLine := ⟨qN 8, "AB200", "beta", "AB200 | beta"⟩

def exIds : List IdLine := [exIdA, exIdB]

def exDl3 : DateLine :=
  ⟨qN 3, [⟨0, "2025-01-01", false⟩, ⟨1, "2025-01-02", false⟩], "d3"⟩

def exDl5 : DateLine :=
  ⟨qN 5, [⟨0, "2025-02-01", false⟩, ⟨1, "2025-02-02", false⟩], "d5"⟩

def exDl11 : DateLine :=
  ⟨qN 11, [⟨0, "2025-03-01", false⟩, ⟨1, "2025-03-02", false⟩], "d11"⟩

def exDates : List DateLine := [exDl3, exDl5, exDl11]

/-- C1 counterexample: on identifier-rows at y_mid 0 and 8 and date-rows at
y_mid 3, 5 and 11, the median-offset procedure the claim describes pairs
the date-row at y_mid 5 with the identifier-row at 0 (offset -3), while the
code's nearest_id pairs it with the identifier-row at 8 — the code
estimates no offset at all. -/
theorem claim_C1_counterexample :
    ((specOffsetJoin exIds exDates (qN 14) (qN 14)).find?
        (fun p => p.1.ymid == qN 5)).map (fun p => p.2.activity_id) = some "AA100" ∧
    (nearest_id exIds (qN 5)).1.map (·.activity_id) = some "AB200" ∧
    ("AA100" : String) ≠ "AB200" := by decide

/-- C1 (amended): the row join engine estimates no vertical offset.  Each
date-row is paired directly with the identifier-row whose y_mid is closest
to the date-row's own y_mid (first such row on ties, provided some row is
within the 1e9 sentinel), and a date-row whose nearest identifier-row is
farther than the absolute bound 14.0 is discarded without error, leaving
the context unchanged. -/
theorem claim_C1_amended (ids : List IdLine) (y : Q)
    (hy : 0 < y.den) (hids : ∀ r ∈ ids, 0 < r.ymid.den)
    (hlt : ∃ r ∈ ids, qLtB (qAbs (qSub r.ymid y)) (qN 1000000000) = true) :
    (∃ r ∈ ids,
      nearest_id ids y = (some r, qAbs (qSub r.ymid y)) ∧
      ∀ r' ∈ ids, qLeB (qAbs (qSub r.ymid y)) (qAbs (qSub r'.ymid y)) = true) ∧
    (∀ ctx pi tp dl lr dist, nearest_id ids dl.ymid = (some lr, dist) →
      qLtB Y_JOIN_MAX dist = true → joinStep ctx ids pi tp dl = (ctx, none)) := by
  constructor
  · obtain ⟨spos, sle, smin, scase⟩ :=
      nearestIdAux_spec y hy ids none (qN 1000000000) hids (by decide)
    rcases scase with ⟨hb1, hb2⟩ | ⟨r, hr, hb1, hb2⟩
    · exfalso
      obtain ⟨r0, hr0, hr0lt⟩ := hlt
      have h2 : qLtB (nearestIdAux y ids none (qN 1000000000)).2 (qN 1000000000) = true := by
        refine qLeB_qLtB_trans _ _ _ spos ?_ (smin r0 hr0) hr0lt
        rw [qAbs_den, qSub_den]
        exact Nat.mul_pos (hids r0 hr0) hy
      rw [hb2] at h2
      rw [qLtB_irrefl] at h2
      exact Bool.noConfusion h2
    · refine ⟨r, hr, ?_, ?_⟩
      · unfold nearest_id
        rw [← hb1, ← hb2]
      · intro r' hr'
        rw [← hb2]
        exact smin r' hr'
  · intro ctx pi tp dl lr dist hn hd
    unfold joinStep
    rw [hn]
    dsimp only []
    rw [if_pos hd]

theorem claim_C1_witness :
    ∃ r ∈ [idS01],
      nearest_id [idS01] ⟨203, 2⟩ = (some r, qAbs (qSub r.ymid ⟨203, 2⟩)) ∧
      ∀ r' ∈ [idS01],
        qLeB (qAbs (qSub r.ymid ⟨203, 2⟩)) (qAbs (qSub r'.ymid ⟨203, 2⟩)) = true :=
  (claim_C1_amended [idS01] ⟨203, 2⟩ (by decide) (by decide)
    ⟨idS01, by decide, by decide⟩).1

/-! The finalizer: order facts and the de-duplication contract. -/

theorem intListLe_total : ∀ a b : List Int, intListLe a b = true ∨ intListLe b a = true
  | [], _ => Or.inl rfl
  | _ :: _, [] => Or.inr rfl
  | a :: as, b :: bs => by
    unfold intListLe
    by_cases h1 : a < b
    · left
      rw [if_pos h1]
    · by_cases h2 : b < a
      · right
        rw [if_pos h2]
      · rw [if_neg h1, if_neg h2, if_neg h2, if_neg h1]
        exact intListLe_total as bs

theorem intListLe_trans : ∀ a b c : List Int,
    intListLe a b = true → intListLe b c = true → intListLe a c = true
  | [], _, _ => fun _ _ => rfl
  | a :: as, [], _ => fun h _ => Bool.noConfusion h
  | _ :: _, _ :: _, [] => fun _ h => Bool.noConfusion h
  | a :: as, b :: bs, c :: cs => by
    intro h1 h2
    unfold intListLe at h1 h2 ⊢
    by_cases hab : a < b
    · rw [if_pos hab] at h1
      by_cases hbc : b < c
      · rw [if_pos (by omega : a < c)]
      · by_cases hcb : c < b
        · rw [if_pos hcb] at h2
          rw [if_neg (by omega)] at h2
          exact Bool.noConfusion h2
        · rw [if_pos (by omega : a < c)]
    · by_cases hba : b < a
      · rw [if_pos hba] at h1
        rw [if_neg (by omega)] at h1
        exact Bool.noConfusion h1
      · by_cases hbc : b < c
        · rw [if_pos (by omega : a < c)]
        · by_cases hcb : c < b
          · rw [if_pos hcb] at h2
            rw [if_neg (by omega)] at h2
            exact Bool.noConfusion h2
          · rw [if_neg hbc, if_neg hcb] at h2
            rw [if_neg hab, if_neg hba] at h1
            rw [if_neg (by omega : ¬ a < c), if_neg (by omega : ¬ c < a)]
            exact intListLe_trans as bs cs h1 h2

theorem recLeB_total (a b : Record) : recLeB a b = true ∨ recLeB b a = true :=
  intListLe_total (recKey a) (recKey b)

theorem recLeB_trans (a b c : Record) (h1 : recLeB a b = true) (h2 : recLeB b c = true) :
    recLeB a c = true :=
  intListLe_trans (recKey a) (recKey b) (recKey c) h1 h2

theorem pairwise_insertLe (leB : α → α → Bool)
    (htot : ∀ a b, leB a b = true ∨ leB b a = true)
    (htrans : ∀ a b c, leB a b = true → leB b c = true → leB a c = true)
    (x : α) : ∀ l, l.Pairwise (fun a b => leB a b = true) →
      (insertLe leB x l).Pairwise (fun a b => leB a b = true) := by
  intro l
  induction l with
  | nil => intro _; exact List.pairwise_singleton _ x
  | cons y ys ih =>
    intro hp
    rcases List.pairwise_cons.mp hp with ⟨hy, hys⟩
    unfold insertLe
    by_cases hc : leB y x = true
    · rw [if_pos hc]
      refine List.pairwise_cons.mpr ⟨?_, ih hys⟩
      intro a ha
      rw [mem_insertLe] at ha
      rcases ha with he | hm
      · rw [he]
        exact hc
      · exact hy a hm
    · rw [if_neg hc]
      have hxy : leB x y = true := (htot y x).resolve_left hc
      refine List.pairwise_cons.mpr ⟨?_, hp⟩
      intro a ha
      rcases List.mem_cons.mp ha with he | hm
      · rw [he]
        exact hxy
      · exact htrans x y a hxy (hy a hm)

theorem pairwise_sortLe (leB : α → α → Bool)
    (htot : ∀ a b, leB a b = true ∨ leB b a = true)
    (htrans : ∀ a b c, leB a b = true → leB b c = true → leB a c = true)
    (l : List α) : (sortLe leB l).Pairwise (fun a b => leB a b = true) := by
  suffices h : ∀ (l acc : List α), acc.Pairwise (fun a b => leB a b = true) →
      (l.foldl (fun acc x => insertLe leB x acc) acc).Pairwise (fun a b => leB a b = true) by
    exact h l [] List.Pairwise.nil
  intro l
  induction l with
  | nil => intro acc hacc; exact hacc
  | cons x xs ih =>
    intro acc hacc
    rw [List.foldl_cons]
    exact ih _ (pairwise_insertLe leB htot htrans x acc hacc)

theorem perm_insertLe (leB : α → α → Bool) (x : α) :
    ∀ l : List α, (insertLe leB x l).Perm (x :: l) := by
  intro l
  induction l with
  | nil => exact List.Perm.refl _
  | cons y ys ih =>
    unfold insertLe
    by_cases hc : leB y x = true
    · rw [if_pos hc]
      exact (ih.cons y).trans (List.Perm.swap x y ys)
    · rw [if_neg hc]

theorem perm_sortLe (leB : α → α → Bool) (l : List α) : (sortLe leB l).Perm l := by
  suffices h : ∀ (l acc : List α),
      (l.foldl (fun acc x => insertLe leB x acc) acc).Perm (acc ++ l) by
    have h2 := h l []
    rw [List.nil_append] at h2
    exact h2
  intro l
  induction l with
  | nil => intro acc; rw [List.append_nil]; exact List.Perm.refl _
  | cons x xs ih =>
    intro acc
    rw [List.foldl_cons]
    refine (ih (insertLe leB x acc)).trans ?_
    refine (List.Perm.append_right xs (perm_insertLe leB x acc)).trans ?_
    exact List.perm_middle.symm

theorem dedupRecords_not_seen :
    ∀ (l : List Record) (seen : List (String × PDate × PDate)) (r : Record),
      r ∈ dedupRecords l seen → recordKey r ∉ seen := by
  intro l
  induction l with
  | nil => intro seen r h; exact absurd h (List.not_mem_nil r)
  | cons x xs ih =>
    intro seen r h
    unfold dedupRecords at h
    by_cases hc : recordKey x ∈ seen
    · rw [if_pos hc] at h
      exact ih seen r h
    · rw [if_neg hc] at h
      rcases List.mem_cons.mp h with he | htl
      · rw [he]
        exact hc
      · have h2 := ih _ r htl
        intro hmem
        exact h2 (List.mem_cons_of_mem _ hmem)

theorem dedupRecords_keys_distinct :
    ∀ (l : List Record) (seen : List (String × PDate × PDate)),
      (dedupRecords l seen).Pairwise (fun a b => recordKey a ≠ recordKey b) := by
  intro l
  induction l with
  | nil => intro seen; exact List.Pairwise.nil
  | cons x xs ih =>
    intro seen
    unfold dedupRecords
    by_cases hc : recordKey x ∈ seen
    · rw [if_pos hc]
      exact ih seen
    · rw [if_neg hc]
      refine List.pairwise_cons.mpr ⟨?_, ih _⟩
      intro a ha
      have h2 := dedupRecords_not_seen xs (recordKey x :: seen) a ha
      intro he
      exact h2 (he ▸ List.mem_cons_self _ _)

theorem dedupRecords_first :
    ∀ (l : List Record) (seen : List (String × PDate × PDate)) (r : Record),
      r ∈ l → recordKey r ∉ seen →
      ∃ r' ∈ dedupRecords l seen, recordKey r' = recordKey r ∧
        l.find? (fun x => decide (recordKey x = recordKey r)) = some r' := by
  intro l
  induction l with
  | nil => intro seen r h _; exact absurd h (List.not_mem_nil r)
  | cons x xs ih =>
    intro seen r hr hseen
    unfold dedupRecords
    by_cases hc : recordKey x ∈ seen
    · rw [if_pos hc]
      have hxr : recordKey x ≠ recordKey r := fun he => hseen (he ▸ hc)
      have hrxs : r ∈ xs := by
        rcases List.mem_cons.mp hr with he | hm
        · exfalso
          apply hseen
          rw [he]
          exact hc
        · exact hm
      obtain ⟨r', hr'mem, hr'key, hr'find⟩ := ih seen r hrxs hseen
      refine ⟨r', hr'mem, hr'key, ?_⟩
      rw [List.find?_cons_of_neg _ (by simp [hxr]), hr'find]
    · rw [if_neg hc]
      by_cases hxr : recordKey x = recordKey r
      · refine ⟨x, List.mem_cons_self _ _, hxr, ?_⟩
        rw [List.find?_cons_of_pos _ (by simp [hxr])]
      · have hrxs : r ∈ xs := by
          rcases List.mem_cons.mp hr with he | hm
          · exact absurd (congrArg recordKey he).symm hxr
          · exact hm
        have hseen2 : recordKey r ∉ recordKey x :: seen := by
          intro hm
          rcases List.mem_cons.mp hm with he | hm2
          · exact hxr he.symm
          · exact hseen hm2
        obtain ⟨r', hr'mem, hr'key, hr'find⟩ := ih (recordKey x :: seen) r hrxs hseen2
        refine ⟨r', List.mem_cons_of_mem x hr'mem, hr'key, ?_⟩
        rw [List.find?_cons_of_neg _ (by simp [hxr]), hr'find]

def mkRec (pkg : Option String) (id nm : String) : Record :=
  { major_group := "Unknown", package_code := pkg, package_name := none,
    activity_id := id, activity_name := nm, work_type := "Other",
    start := ⟨2025, 1, 1⟩, finish := ⟨2025, 2, 1⟩, duration_days := 31,
    is_milestone := false, source_page := 1, pdf_pages := 1,
    start_star := false, finish_star := false }

def rA10 : Record := mkRec (some "A10") "X100" "ten"

def rNone : Record := mkRec none "X200" "none"

def rA05 : Record := mkRec (some "A05") "X300" "five"

def rDup1 : Record := mkRec none "X400" "first description"

def rDup2 : Record := mkRec none "X400" "second description"

/-- C4: the finalizer de-duplicates by (identifier, start, finish) keeping
the first record in document order, and sorts ascending by (package_code,
start, finish, identifier) with records lacking a package_code after all
that have one.  Concretely, package codes A10, None, A05 with matching
dates come out ordered A05, A10, None, and two records sharing the key
under different descriptions collapse to the first. -/
theorem claim_C4 (l : List Record) :
    (finalize l).Pairwise (fun a b => recLeB a b = true) ∧
    (finalize l).Pairwise (fun a b => recordKey a ≠ recordKey b) ∧
    (∀ r ∈ finalize l, r ∈ l) ∧
    (∀ r ∈ l, ∃ r' ∈ finalize l, recordKey r' = recordKey r ∧
      l.find? (fun x => decide (recordKey x = recordKey r)) = some r') ∧
    (∀ a b : Record, a.package_code.isSome = true → b.package_code = none →
      recLeB a b = true) ∧
    finalize [rA10, rNone, rA05] = [rA05, rA10, rNone] ∧
    finalize [rDup1, rDup2] = [rDup1] := by
  refine ⟨?_, ?_, ?_, ?_, ?_, by decide, by decide⟩
  · exact pairwise_sortLe recLeB recLeB_total recLeB_trans _
  · unfold finalize
    have hp := dedupRecords_keys_distinct l []
    exact ((perm_sortLe recLeB (dedupRecords l [])).pairwise_iff
      (fun h he => h he.symm)).mpr hp
  · intro r hr
    unfold finalize at hr
    rw [mem_sortLe] at hr
    exact dedupRecords_subset l [] r hr
  · intro r hr
    obtain ⟨r', hr'mem, hr'key, hr'find⟩ :=
      dedupRecords_first l [] r hr (List.not_mem_nil _)
    refine ⟨r', ?_, hr'key, hr'find⟩
    unfold finalize
    rw [mem_sortLe]
    exact hr'mem
  · intro a b ha hb
    simp [recLeB, recKey, intListLe, ha, hb]

theorem claim_C4_witness :
    ∃ r' ∈ finalize [rA10, rNone, rA05], recordKey r' = recordKey rA10 ∧
      [rA10, rNone, rA05].find?
        (fun x => decide (recordKey x = recordKey rA10)) = some r' :=
  (claim_C4 [rA10, rNone, rA05]).2.2.2.1 rA10 (by decide)

end Primavera
